import Mathlib

/-!
Verification of the forgi RNA graph tools.

This file embeds the two source modules:

* `RNA_longest.py`: `parse_graph_with_bases`, `find_longest_path_by_edges`,
  `find_longest_path_by_bases`;
* `RNA_visulize.py`: `filter_internal_loops`.

Modelling conventions:

* A line of text is a `List Char` (`Line`).  A file/text is a `List Line`,
  corresponding to `splitlines()` of the raw text (readlines-with-newline
  differs only by a trailing `'\n'` on each line, which none of the regular
  expressions involved can distinguish: `\n` is whitespace, so it neither
  extends a `\S+` token nor blocks a trailing-context-free pattern).
* Python `re` whitespace is modelled by the six ASCII whitespace characters
  (the inputs of this program are ASCII dialect text).
* `re.match(r"\s*(\S+)\s--\s(\S+);", line)` is deterministic because `\s`
  and `\S` are disjoint: `\s*` must take the maximal leading whitespace run,
  the first group must be the full first maximal non-whitespace run (a
  single `\s` follows it), then literally `--`, a single whitespace, and the
  second group is the next maximal non-whitespace run truncated at its last
  `';'` (greedy `\S+` followed by the literal `';'`).  `edgeMatchL` below
  implements exactly this characterisation.
* `nx.Graph` is modelled by a node list in insertion order plus an edge
  list in insertion order, with the networkx invariants (no duplicate
  nodes, edge endpoints are nodes) carried as fields.
* `nx.shortest_path(graph, u, v, weight=None)` returns a path of minimal
  length between `u` and `v`, or raises `NetworkXNoPath`.  It is modelled
  by enumerating all simple paths and picking the first one of minimal
  length; every property proved below depends only on the returned path
  being an actual path of minimal length (which particular tie is returned
  is irrelevant to all claims, and is not pinned down by the library
  contract either).
* `list(set(edge_lines))` enumerates a Python set in unspecified order;
  it is modelled by a duplicate-removing pass (`pyDedup`).  The subsequent
  `list.sort` is modelled by `List.insertionSort` with the same key; the
  order among distinct elements with equal keys is unspecified in Python
  (it depends on the set iteration order), and no claim depends on it.
-/

abbrev Line := List Char

/-- Python `\s` (ASCII range): the whitespace characters recognised by
`str.strip` and `re` on the ASCII plane. -/
def isWS (c : Char) : Bool :=
  c = ' ' || c = '\t' || c = '\n' || c = '\r' || c = '\x0b' || c = '\x0c'

/-- Python `str.strip()`. -/
def stripL (l : Line) : Line :=
  ((l.dropWhile isWS).reverse.dropWhile isWS).reverse

/-- Substring containment, Python `pat in line`. -/
def containsL (pat : Line) : Line → Bool
  | [] => pat.isPrefixOf ([] : Line)
  | c :: t => pat.isPrefixOf (c :: t) || containsL pat t

/-- The longest proper prefix `p` of `cs` such that the character following
`p` in `cs` is `';'` (i.e. `cs` truncated at its last `';'`).  This is the
greedy group of `(\S+);` matched inside a non-whitespace run. -/
def lastSemiPre : Line → Option Line
  | [] => none
  | c :: rest =>
    match lastSemiPre rest with
    | some p => some (c :: p)
    | none => if c = ';' then some ([] : Line) else none

/-- `re.match(r"\s*(\S+)\s--\s(\S+);", line)`, returning the two groups.
See the header comment for why this backtracking regex is equivalent to
this deterministic scan. -/
def edgeMatchL (line : Line) : Option (Line × Line) :=
  let rest0 := line.dropWhile isWS
  let tokA := rest0.takeWhile (fun c => !isWS c)
  if tokA.isEmpty then none else
  match rest0.drop tokA.length with
  | c1 :: '-' :: '-' :: c2 :: rest2 =>
    if isWS c1 && isWS c2 then
      let runB := rest2.takeWhile (fun c => !isWS c)
      match lastSemiPre runB with
      | some tokB => if tokB.isEmpty then none else some (tokA, tokB)
      | none => none
    else none
  | _ => none

/-! ## `filter_internal_loops` (RNA_visulize.py) -/

/-- Literal `"graph G {"` (block opener, matched by prefix of the stripped
line). -/
def graphOpen : Line := "graph G \x7b".data

/-- Literal `"}"` (block closer, matched by equality with the stripped
line). -/
def closeBrace : Line := "\x7d".data

/-- A node-declaration-with-loop-marker line, removed up front:
`line.strip().startswith("{node") and 'label="i' in line`. -/
def isLoopDecl (line : Line) : Bool :=
  ("\x7bnode".data).isPrefixOf (stripL line) && containsL ("label=\"i".data) line

/-- The pre-pass removing internal-loop node declarations. -/
def filterLoopDecls (lines : List Line) : List Line :=
  lines.filter (fun l => !isLoopDecl l)

/-- `node_connections.setdefault(key, []).append(v)` on an
insertion-ordered association list. -/
def addConn (m : List (Line × List Line)) (k v : Line) : List (Line × List Line) :=
  match m with
  | [] => [(k, [v])]
  | (k', vs) :: rest =>
    if k' = k then (k', vs ++ [v]) :: rest else (k', vs) :: addConn rest k v

/-- State of the line scan in `filter_internal_loops`. -/
structure ScanSt where
  inside : Bool
  kept : List Line
  direct : List (Line × Line)
  conns : List (Line × List Line)

/-- One iteration of the `for line in lines` loop of
`filter_internal_loops`. -/
def scanStep (st : ScanSt) (line : Line) : ScanSt :=
  let s := stripL line
  if graphOpen.isPrefixOf s then
    { st with inside := true, kept := st.kept ++ [line] }
  else
    let st := if s = closeBrace then { st with inside := false } else st
    if st.inside then
      match edgeMatchL line with
      | some (a, b) =>
        if a.contains 'i' || b.contains 'i' then
          if a.contains 'i' then { st with conns := addConn st.conns a b }
          else { st with conns := addConn st.conns b a }
        else { st with direct := st.direct ++ [(a, b)] }
      | none => { st with kept := st.kept ++ [line] }
    else { st with kept := st.kept ++ [line] }

/-- The full scan (after loop-declaration removal). -/
def runScan (lines : List Line) : ScanSt :=
  (filterLoopDecls lines).foldl scanStep ⟨false, [], [], []⟩

/-- The `for i … for j in range(i+1, …)` clique expansion of one recorded
neighbour list. -/
def cliquePairs : List Line → List (Line × Line)
  | [] => []
  | x :: xs => xs.map (fun y => (x, y)) ++ cliquePairs xs

/-- All collected edge tuples: direct edges in scan order followed by the
clique-expansion of each intermediate's neighbour list, in dict insertion
order (`edge_lines` just before the `set` deduplication). -/
def collectedPairs (lines : List Line) : List (Line × Line) :=
  let st := runScan lines
  st.direct ++ st.conns.flatMap (fun kv => cliquePairs kv.2)

/-- Duplicate removal, modelling `list(set(edge_lines))` up to the
unspecified set iteration order (this variant keeps the last occurrence;
the result is immediately sorted, and only membership and duplicate-freeness
are ever relevant). -/
def pyDedup {α : Type} [DecidableEq α] : List α → List α
  | [] => []
  | x :: xs => if x ∈ xs then pyDedup xs else x :: pyDedup xs

/-- `int(re.search(r'\d+', s).group())` when a digit run exists:
the first maximal run of decimal digits, as a number. -/
def numKey (s : Line) : Option Nat :=
  let ds := (s.dropWhile (fun c => !c.isDigit)).takeWhile Char.isDigit
  if ds.isEmpty then none
  else some (ds.foldl (fun n c => 10 * n + (c.toNat - 48)) 0)

/-- `a ≤ b` on sort-key components, where `none` stands for
`float('inf')`. -/
def keyLE : Option Nat → Option Nat → Bool
  | _, none => true
  | none, some _ => false
  | some a, some b => a ≤ b

/-- `a < b` on sort-key components, where `none` stands for
`float('inf')`. -/
def keyLT : Option Nat → Option Nat → Bool
  | none, _ => false
  | some _, none => true
  | some a, some b => a < b

/-- The tuple order `sort_key(e1) <= sort_key(e2)` used by
`edge_lines.sort(key=sort_key)`: lexicographic on
`(numKey ∘ fst, numKey ∘ snd)`. -/
def edgeLE (e1 e2 : Line × Line) : Bool :=
  if numKey e1.1 = numKey e2.1 then keyLE (numKey e1.2) (numKey e2.2)
  else keyLT (numKey e1.1) (numKey e2.1)

instance decRelEdgeLE : DecidableRel (fun e1 e2 : Line × Line => edgeLE e1 e2 = true) :=
  fun _ _ => instDecidableEqBool _ _

/-- The deduplicated, sorted edge list of `filter_internal_loops`. -/
def collapsedEdges (lines : List Line) : List (Line × Line) :=
  List.insertionSort (fun e1 e2 => edgeLE e1 e2 = true) (pyDedup (collectedPairs lines))

/-- One output element `f"    {a} -- {b};"` (without its embedded trailing
newline, which is rendered below as a following empty line). -/
def fmtEdge (e : Line × Line) : Line :=
  "    ".data ++ e.1 ++ " -- ".data ++ e.2 ++ ";".data

/-- `filter_internal_loops`, as the list of lines of its output string.
The Python code joins `filtered_lines[:-1] + [f"    {a} -- {b};\n" …] + ["}"]
with `"\n"`; since each edge element carries its own trailing newline, the
joined text splits back into the edge line followed by an empty line. -/
def filter_internal_loops (lines : List Line) : List Line :=
  (runScan lines).kept.dropLast
    ++ (collapsedEdges lines).flatMap (fun e => [fmtEdge e, ([] : Line)])
    ++ [closeBrace]

/-! ## `nx.Graph` and `parse_graph_with_bases` (RNA_longest.py) -/

/-- An undirected networkx graph: nodes in insertion order, stored edges in
insertion order.  The two invariant fields are the `nx.Graph`
representation invariants (node list duplicate-free; every stored edge
endpoint is a node). -/
structure Graph where
  nodes : List Line
  edges : List (Line × Line)
  nodes_nodup : nodes.Nodup
  edges_mem : ∀ e ∈ edges, e.1 ∈ nodes ∧ e.2 ∈ nodes

def emptyG : Graph :=
  ⟨[], [], List.nodup_nil, fun e h => absurd h (List.not_mem_nil e)⟩

/-- Ensure a node is present (appending it in insertion order if new). -/
def addNode (g : Graph) (n : Line) : Graph :=
  if h : n ∈ g.nodes then g
  else
    { nodes := g.nodes ++ [n]
      edges := g.edges
      nodes_nodup := by
        have : (g.nodes ++ [n]).Nodup ↔ g.nodes.Nodup ∧ n ∉ g.nodes := by
          simp [List.nodup_append]
        exact this.2 ⟨g.nodes_nodup, h⟩
      edges_mem := fun e he =>
        ⟨List.mem_append_left _ (g.edges_mem e he).1,
         List.mem_append_left _ (g.edges_mem e he).2⟩ }

theorem mem_addNode {g : Graph} {n m : Line} :
    m ∈ (addNode g n).nodes ↔ m ∈ g.nodes ∨ m = n := by
  unfold addNode
  split
  · constructor
    · exact fun h => Or.inl h
    · rintro (h | rfl)
      · exact h
      · assumption
  · simp

theorem edges_addNode (g : Graph) (n : Line) : (addNode g n).edges = g.edges := by
  unfold addNode; split <;> rfl

/-- `G.add_edge(a, b)`: create missing endpoints, then store the edge
unless it is already present (in either orientation — networkx stores each
undirected edge once). -/
def add_edge (g : Graph) (a b : Line) : Graph :=
  let g1 := addNode (addNode g a) b
  if (a, b) ∈ g1.edges ∨ (b, a) ∈ g1.edges then g1
  else
    { nodes := g1.nodes
      edges := g1.edges ++ [(a, b)]
      nodes_nodup := g1.nodes_nodup
      edges_mem := by
        intro e he
        rcases List.mem_append.1 he with h | h
        · exact g1.edges_mem e h
        · rcases List.mem_singleton.1 h with rfl
          constructor
          · exact mem_addNode.2 (Or.inl (mem_addNode.2 (Or.inr rfl)))
          · exact mem_addNode.2 (Or.inr rfl) }

/-- Undirected adjacency: the edge `{a, b}` is present. -/
def adjacent (g : Graph) (a b : Line) : Prop :=
  (a, b) ∈ g.edges ∨ (b, a) ∈ g.edges

instance (g : Graph) (a b : Line) : Decidable (adjacent g a b) :=
  inferInstanceAs (Decidable ((a, b) ∈ g.edges ∨ (b, a) ∈ g.edges))

/-- `base_counts[k] = v` on an insertion-ordered association list
(Python dict assignment: overwrite in place or append). -/
def dictSet (m : List (Line × Nat)) (k : Line) (v : Nat) : List (Line × Nat) :=
  match m with
  | [] => [(k, v)]
  | (k', v') :: rest =>
    if k' = k then (k, v) :: rest else (k', v') :: dictSet rest k v

/-- Numeric value of a digit run. -/
def digitsVal (ds : List Char) : Nat :=
  ds.foldl (fun n c => 10 * n + (c.toNat - 48)) 0

/-- The longest prefix `p` of `cs` (with at least one character required by
the caller) such that `'}' :: ';'` follows `p` in `cs`: the greedy group of
`(\S+)};` matched inside a non-whitespace run. -/
def lastBraceSemiPre : Line → Option Line
  | [] => none
  | c :: rest =>
    match lastBraceSemiPre rest with
    | some p => some (c :: p)
    | none =>
      match c, rest with
      | '\x7d', ';' :: _ => some ([] : Line)
      | _, _ => none

/-- The tail of the node pattern after a candidate `\(`:
`(\d+)\)"]\s+(\S+)};`.  `\d+` is forced to the maximal digit run (a literal
`)` follows), `\s+` to the maximal whitespace run (a `\S` follows), and the
final group behaves like the edge pattern's second group with `};` in place
of `;`. -/
def matchAfterParen (cs : Line) : Option (Nat × Line) :=
  let ds := cs.takeWhile Char.isDigit
  if ds.isEmpty then none else
  match cs.drop ds.length with
  | ')' :: '"' :: ']' :: rest2 =>
    let ws := rest2.takeWhile isWS
    if ws.isEmpty then none else
    let rest3 := rest2.drop ws.length
    let run := rest3.takeWhile (fun c => !isWS c)
    match lastBraceSemiPre run with
    | some tok => if tok.isEmpty then none else some (digitsVal ds, tok)
    | none => none
  | _ => none

/-- The lazy `.*?\(` scan: try each successive position for the `\(`;
the lazy dot cannot cross a newline. -/
def findParenMatch : Line → Option (Nat × Line)
  | [] => none
  | '\n' :: _ => none
  | '(' :: cs =>
    match matchAfterParen cs with
    | some r => some r
    | none => findParenMatch cs
  | _ :: cs => findParenMatch cs

/-- `re.search(r'label=".*?\((\d+)\)"]\s+(\S+)};', line)`, returning the
base count and the node id: leftmost occurrence of the literal `label="`
from which the lazy remainder succeeds. -/
def nodeSearchL : Line → Option (Nat × Line)
  | [] => none
  | c :: cs =>
    if ("label=\"".data).isPrefixOf (c :: cs) then
      match findParenMatch ((c :: cs).drop 7) with
      | some r => some r
      | none => nodeSearchL cs
    else nodeSearchL cs

/-- One iteration of the parse loop: try the edge pattern, then
(independently) the node pattern. -/
def parseStep (acc : Graph × List (Line × Nat)) (line : Line) :
    Graph × List (Line × Nat) :=
  let acc1 :=
    match edgeMatchL line with
    | some (a, b) => (add_edge acc.1 (stripL a) (stripL b), acc.2)
    | none => acc
  match nodeSearchL line with
  | some (cnt, node) => (acc1.1, dictSet acc1.2 (stripL node) cnt)
  | none => acc1

/-- `parse_graph_with_bases`, over the lines of the input file. -/
def parse_graph_with_bases (lines : List Line) : Graph × List (Line × Nat) :=
  lines.foldl parseStep (emptyG, [])

/-! ## `find_longest_path_by_edges` / `find_longest_path_by_bases` -/

/-- Neighbour list of `u`, in edge insertion order. -/
def nbrs (g : Graph) (u : Line) : List Line :=
  g.edges.filterMap fun e =>
    if e.1 = u then some e.2 else if e.2 = u then some e.1 else none

/-- All simple paths from `u` to `v` avoiding `visited`, with enough fuel;
the enumeration backing the `nx.shortest_path` model. -/
def simplePathsAux (g : Graph) : Nat → List Line → Line → Line → List (List Line)
  | 0, _, _, _ => []
  | fuel + 1, visited, u, v =>
    if u = v then [[u]]
    else
      ((nbrs g u).filter (fun w => !(u :: visited).contains w)).flatMap
        (fun w => (simplePathsAux g fuel (u :: visited) w v).map (fun p => u :: p))

/-- All simple paths from `u` to `v` in `g`. -/
def simplePaths (g : Graph) (u v : Line) : List (List Line) :=
  simplePathsAux g g.nodes.length [] u v

/-- First list of minimal length. -/
def pickShortest : List (List Line) → Option (List Line)
  | [] => none
  | p :: ps =>
    match pickShortest ps with
    | none => some p
    | some q => if q.length < p.length then some q else some p

/-- Model of `nx.shortest_path(graph, source=u, target=v, weight=None)`:
`some` shortest path when one exists, `none` for `NetworkXNoPath`. -/
def shortest_path (g : Graph) (u v : Line) : Option (List Line) :=
  pickShortest (simplePaths g u v)

/-- The ordered pairs `(node, target)` with `node != target`, in the
iteration order of the two nested `for … in graph.nodes` loops. -/
def orderedPairs (ns : List Line) : List (Line × Line) :=
  ns.flatMap fun u => (ns.filter (fun v => v ≠ u)).map (fun v => (u, v))

/-- `find_longest_path_by_edges`: track `(longest_path, max_length)` under
strict improvement of `len(path)`, and return `max_length - 1` (an `Int`:
the empty fold returns `0 - 1 = -1`). -/
def find_longest_path_by_edges (g : Graph) : List Line × Int :=
  let r :=
    (orderedPairs g.nodes).foldl
      (fun (acc : List Line × Nat) pr =>
        match shortest_path g pr.1 pr.2 with
        | some p => if p.length > acc.2 then (p, p.length) else acc
        | none => acc)
      (([] : List Line), 0)
  (r.1, (r.2 : Int) - 1)

/-- `base_counts.get(n, 0)`. -/
def getWeight (bc : List (Line × Nat)) (n : Line) : Nat :=
  ((bc.find? fun kv => kv.1 = n).map (·.2)).getD 0

/-- `sum(base_counts.get(n, 0) for n in path)`. -/
def baseSum (bc : List (Line × Nat)) (p : List Line) : Nat :=
  (p.map (getWeight bc)).sum

/-- `find_longest_path_by_bases`: same skeleton with the base-sum metric,
starting from `max_bases = 0` and returning it unchanged. -/
def find_longest_path_by_bases (g : Graph) (bc : List (Line × Nat)) :
    List Line × Nat :=
  (orderedPairs g.nodes).foldl
    (fun (acc : List Line × Nat) pr =>
      match shortest_path g pr.1 pr.2 with
      | some p =>
        let s := baseSum bc p
        if s > acc.2 then (p, s) else acc
      | none => acc)
    (([] : List Line), 0)

/-- The shortest paths actually found by the search loops, in pair
iteration order (pairs raising `NetworkXNoPath` skipped). -/
def candidates (g : Graph) : List (List Line) :=
  (orderedPairs g.nodes).filterMap fun pr => shortest_path g pr.1 pr.2

def scen1 : Graph := add_edge (add_edge emptyG "n1".data "n2".data) "n2".data "n3".data
def scen1bc : List (Line × Nat) := [("n1".data, 3), ("n2".data, 5), ("n3".data, 2)]
def scen2 : Graph :=
  add_edge (add_edge (add_edge emptyG "n1".data "n2".data) "n3".data "n4".data)
    "n4".data "n5".data
/-! ## Specification-side notions used by the theorems -/

/-- A path of the graph data model (spec §3): nonempty sequence of distinct
nodes from `u` to `v` whose consecutive pairs are edges. -/
def IsPath (g : Graph) (u v : Line) (p : List Line) : Prop :=
  p.head? = some u ∧ p.getLast? = some v ∧ List.Chain' (adjacent g) p ∧ p.Nodup

/-- Boolean adjacency-chain check used for executable decidability of
`IsPath`. -/
def chainAdjB (g : Graph) : List Line → Bool
  | [] => true
  | [_] => true
  | a :: b :: t => decide (adjacent g a b) && chainAdjB g (b :: t)

/-- Boolean duplicate-freeness check used for executable decidability of
`IsPath`. -/
def nodupB : List Line → Bool
  | [] => true
  | x :: t => !t.contains x && nodupB t

/-- A regex-group token: nonempty would be required separately; this says
it contains no whitespace character. -/
def wsFree (l : Line) : Prop := ∀ c ∈ l, isWS c = false

instance decWsFree (l : Line) : Decidable (wsFree l) :=
  inferInstanceAs (Decidable (∀ c ∈ l, isWS c = false))

/-- Maximum of a list of naturals (0 for the empty list), matching the
search loops' initial best metric. -/
def maxNat (l : List Nat) : Nat := l.foldr max 0

/-- `maxNat` over the candidate path lengths of the edge-count search. -/
def maxLenC (g : Graph) : Nat := maxNat ((candidates g).map List.length)

/-- `maxNat` over the candidate base sums of the base-count search. -/
def maxBaseC (g : Graph) (bc : List (Line × Nat)) : Nat :=
  maxNat ((candidates g).map (baseSum bc))

/-- The `inside_graph` flag after one line of the collapse scan. -/
def insideAfter (b : Bool) (l : Line) : Bool :=
  if graphOpen.isPrefixOf (stripL l) then true
  else if stripL l = closeBrace then false
  else b

/-- Whether the collapse scan keeps a line verbatim: opener lines always;
otherwise exactly the lines that are not edge matches while inside the
block (the closer already counts as outside). -/
def keepLine (b : Bool) (l : Line) : Bool :=
  if graphOpen.isPrefixOf (stripL l) then true
  else
    let b' := if stripL l = closeBrace then false else b
    !b' || (edgeMatchL l).isNone

/-- Stateless characterisation of `filtered_lines`: an order-preserving
filter of the input lines driven by the `inside` flag. -/
def keptScan : Bool → List Line → List Line
  | _, [] => []
  | b, l :: ls =>
    if keepLine b l then l :: keptScan (insideAfter b l) ls
    else keptScan (insideAfter b l) ls

/-- A well-formed regex-group token: nonempty and whitespace-free (every
group captured by `(\\S+)` satisfies this). -/
def goodTok (l : Line) : Prop := wsFree l ∧ l ≠ []

/-- All neighbour lists recorded in `node_connections` contain only
well-formed tokens. -/
def goodConns (m : List (Line × List Line)) : Prop :=
  ∀ kv ∈ m, ∀ v ∈ kv.2, goodTok v

/-! ## Concrete inputs used by witnesses and counterexamples -/

/-- The two-node connected graph `n1 -- n2` (a tree). -/
def g10 : Graph := add_edge emptyG "n1".data "n2".data

/-- A weight table giving `n1` a positive base count. -/
def bc10 : List (Line × Nat) := [("n1".data, 3)]

/-- A graph block containing the same unordered edge in both
orientations. -/
def c2cex : List Line :=
  ["graph G \x7b".data, "n1 -- n2;".data, "n2 -- n1;".data, "\x7d".data]

/-- A text with an edge-shaped line before the graph block. -/
def c3cex : List Line :=
  ["x -- y;".data, "graph G \x7b".data, "\x7d".data]

/-- A minimal graph block with one direct edge. -/
def c9cex : List Line :=
  ["graph G \x7b".data, "n1 -- n2;".data, "\x7d".data]

/-- A graph block where an intermediate `i2` links `n1` and `n3`. -/
def c3wit : List Line :=
  ["graph G \x7b".data, "n1 -- i2;".data, "i2 -- n3;".data, "\x7d".data]

/-! ## Sanity checks of the embedding on concrete inputs -/

theorem chainAdjB_iff (g : Graph) : ∀ p : List Line,
    chainAdjB g p = true ↔ List.Chain' (adjacent g) p := by
  intro p
  match p with
  | [] => simp [chainAdjB]
  | [a] => simp [chainAdjB]
  | a :: b :: t =>
    rw [List.chain'_cons, ← chainAdjB_iff g (b :: t)]
    simp [chainAdjB]

theorem nodupB_iff : ∀ l : List Line, nodupB l = true ↔ l.Nodup := by
  intro l
  induction l with
  | nil => simp [nodupB]
  | cons x t ih => simp [nodupB, ih, List.nodup_cons]

instance decIsPath (g : Graph) (u v : Line) (p : List Line) :
    Decidable (IsPath g u v p) :=
  decidable_of_iff
    (p.head? = some u ∧ p.getLast? = some v ∧ chainAdjB g p = true ∧ nodupB p = true)
    (by unfold IsPath; rw [chainAdjB_iff, nodupB_iff])


-- Sanity checks of the regex model against Python `re` behaviour.
example : edgeMatchL "n1 -- n2;".data = some ("n1".data, "n2".data) := by decide
example : edgeMatchL "   h0 -- i1;".data = some ("h0".data, "i1".data) := by decide
-- exactly one whitespace character is allowed on each side of `--`:
example : edgeMatchL "n1  --  n2;".data = none := by decide
example : edgeMatchL "n1 --  n2;".data = none := by decide
example : edgeMatchL "n1\t--\tn2;".data = some ("n1".data, "n2".data) := by decide
-- the second group is truncated at its last semicolon:
example : edgeMatchL "a -- b;c; x".data = some ("a".data, "b;c".data) := by decide
-- no terminating semicolon, no match:
example : edgeMatchL "a -- b".data = none := by decide
example : edgeMatchL "graph G \x7b".data = none := by decide
example : edgeMatchL "\x7d".data = none := by decide
example : edgeMatchL "".data = none := by decide
-- The collapse of spec §8 Scenario 3: `i1` connected to `n1`, `n2`, `n3`
-- becomes the triangle `n1--n2`, `n1--n3`, `n2--n3`.
example :
    filter_internal_loops
      ["graph G \x7b".data, "i1 -- n1;".data, "i1 -- n2;".data, "i1 -- n3;".data,
       "\x7d".data] =
      ["graph G \x7b".data,
       "    n1 -- n2;".data, "".data,
       "    n1 -- n3;".data, "".data,
       "    n2 -- n3;".data, "".data,
       "\x7d".data] := by decide
-- A converter-style declaration line, as in the real dialect.
example :
    nodeSearchL "\x7bnode [ shape = circle, label=\"h1 (4)\"] h1\x7d;".data =
      some (4, "h1".data) := by decide
-- Spec §8 Scenario 1: path graph n1–n2–n3 with bases 3, 5, 2.
example : find_longest_path_by_edges scen1 = (["n1".data, "n2".data, "n3".data], 2) := by
  decide
example : find_longest_path_by_bases scen1 scen1bc =
    (["n1".data, "n2".data, "n3".data], 10) := by decide
-- Spec §8 Scenario 2: components {n1–n2} and {n3–n4–n5}.
example : find_longest_path_by_edges scen2 = (["n3".data, "n4".data, "n5".data], 2) := by
  decide


/-! ## List helper lemmas -/

theorem dropWhile_append_all {p : Char → Bool} {xs ys : Line}
    (h : ∀ c ∈ xs, p c = true) :
    (xs ++ ys).dropWhile p = ys.dropWhile p := by
  induction xs with
  | nil => rfl
  | cons c t ih =>
    simp only [List.cons_append, List.dropWhile_cons, h c (List.mem_cons_self c t)]
    exact ih fun d hd => h d (List.mem_cons_of_mem c hd)

theorem dropWhile_cons_false {p : Char → Bool} {c : Char} {t : Line}
    (h : p c = false) : (c :: t).dropWhile p = c :: t := by
  simp [List.dropWhile_cons, h]

theorem takeWhile_append_stop {q : Char → Bool} {a : Line} {s : Char} {r : Line}
    (ha : ∀ c ∈ a, q c = true) (hs : q s = false) :
    (a ++ s :: r).takeWhile q = a := by
  induction a with
  | nil => simp [List.takeWhile_cons, hs]
  | cons c t ih =>
    simp [List.takeWhile_cons, ha c (List.mem_cons_self c t),
      ih fun d hd => ha d (List.mem_cons_of_mem c hd)]

theorem takeWhile_all {q : Char → Bool} {l : Line}
    (h : ∀ c ∈ l, q c = true) : l.takeWhile q = l := by
  induction l with
  | nil => rfl
  | cons c t ih =>
    simp [List.takeWhile_cons, h c (List.mem_cons_self c t),
      ih fun d hd => h d (List.mem_cons_of_mem c hd)]

theorem lastSemiPre_append_semi (b : Line) : lastSemiPre (b ++ [';']) = some b := by
  induction b with
  | nil => rfl
  | cons c t ih => simp [lastSemiPre, ih]

/-- `lastSemiPre` returns a prefix: the input is the prefix, a `';'`, and a
remainder. -/
theorem lastSemiPre_spec {cs p : Line} (h : lastSemiPre cs = some p) :
    ∃ rest, cs = p ++ ';' :: rest := by
  induction cs generalizing p with
  | nil => simp [lastSemiPre] at h
  | cons c t ih =>
    simp only [lastSemiPre] at h
    rcases hrec : lastSemiPre t with _ | q
    · rw [hrec] at h
      by_cases hc : c = ';'
      · simp [hc] at h
        subst hc
        exact ⟨t, by simp [← h]⟩
      · simp [hc] at h
    · rw [hrec] at h
      obtain ⟨rest, hr⟩ := ih hrec
      cases h
      exact ⟨rest, by simp [hr]⟩

theorem stripL_wsFree {a : Line} (h : wsFree a) : stripL a = a := by
  have h1 : a.dropWhile isWS = a := by
    cases a with
    | nil => rfl
    | cons c t => exact dropWhile_cons_false (h c (List.mem_cons_self c t))
  have h2 : a.reverse.dropWhile isWS = a.reverse := by
    cases hr : a.reverse with
    | nil => rfl
    | cons c t =>
      refine dropWhile_cons_false (h c ?_)
      have : c ∈ a.reverse := by rw [hr]; exact List.mem_cons_self c t
      exact List.mem_reverse.1 this
  rw [stripL, h1, h2, List.reverse_reverse]

theorem mem_pyDedup {α : Type} [DecidableEq α] {l : List α} {x : α} :
    x ∈ pyDedup l ↔ x ∈ l := by
  induction l with
  | nil => rfl
  | cons y t ih =>
    simp only [pyDedup]
    split
    · rw [ih]
      constructor
      · exact fun h => List.mem_cons_of_mem y h
      · intro h
        rcases List.mem_cons.1 h with rfl | h
        · assumption
        · exact h
    · simp [ih]

theorem nodup_pyDedup {α : Type} [DecidableEq α] (l : List α) :
    (pyDedup l).Nodup := by
  induction l with
  | nil => exact List.nodup_nil
  | cons y t ih =>
    simp only [pyDedup]
    split
    · exact ih
    · exact List.nodup_cons.2 ⟨fun h => ‹y ∉ t› (mem_pyDedup.1 h), ih⟩

theorem mem_cliquePairs {N : List Line} {a b : Line} :
    (a, b) ∈ cliquePairs N ↔
      ∃ i j, i < j ∧ N.get? i = some a ∧ N.get? j = some b := by
  induction N with
  | nil => simp [cliquePairs]
  | cons x xs ih =>
    simp only [cliquePairs, List.mem_append, List.mem_map, ih]
    constructor
    · rintro (⟨y, hy, heq⟩ | ⟨i, j, hij, ha, hb⟩)
      · obtain ⟨rfl, rfl⟩ : x = a ∧ y = b := by
          constructor <;> [exact congrArg Prod.fst heq; exact congrArg Prod.snd heq]
        obtain ⟨j, hj⟩ := List.mem_iff_get?.1 hy
        exact ⟨0, j + 1, Nat.succ_pos j, rfl, hj⟩
      · exact ⟨i + 1, j + 1, Nat.succ_lt_succ hij, ha, hb⟩
    · rintro ⟨i, j, hij, ha, hb⟩
      match i, j, hij with
      | 0, j + 1, _ =>
        left
        simp only [List.get?] at ha hb
        cases ha
        exact ⟨b, List.get?_mem hb, rfl⟩
      | i + 1, j + 1, hij =>
        right
        simp only [List.get?] at ha hb
        exact ⟨i, j, Nat.lt_of_succ_lt_succ hij, ha, hb⟩

theorem mem_of_cliquePairs {N : List Line} {a b : Line}
    (h : (a, b) ∈ cliquePairs N) : a ∈ N ∧ b ∈ N := by
  induction N with
  | nil => simp [cliquePairs] at h
  | cons x xs ih =>
    simp only [cliquePairs, List.mem_append, List.mem_map] at h
    rcases h with ⟨y, hy, heq⟩ | h
    · obtain ⟨rfl, rfl⟩ : x = a ∧ y = b := by
        constructor <;> [exact congrArg Prod.fst heq; exact congrArg Prod.snd heq]
      exact ⟨List.mem_cons_self _ _, List.mem_cons_of_mem _ hy⟩
    · obtain ⟨h1, h2⟩ := ih h
      exact ⟨List.mem_cons_of_mem _ h1, List.mem_cons_of_mem _ h2⟩

/-! ## The sort key order -/

theorem keyLE_total (x y : Option Nat) : keyLE x y = true ∨ keyLE y x = true := by
  cases x <;> cases y <;> simp [keyLE] <;> omega

theorem keyLE_trans {x y z : Option Nat} (h1 : keyLE x y = true)
    (h2 : keyLE y z = true) : keyLE x z = true := by
  cases x <;> cases y <;> cases z <;> simp [keyLE] at * <;> omega

theorem keyLT_total_of_ne {x y : Option Nat} (h : x ≠ y) :
    keyLT x y = true ∨ keyLT y x = true := by
  cases x <;> cases y <;> simp [keyLT] at *
  omega

theorem keyLT_trans {x y z : Option Nat} (h1 : keyLT x y = true)
    (h2 : keyLT y z = true) : keyLT x z = true := by
  cases x <;> cases y <;> cases z <;> simp [keyLT] at * <;> omega

theorem keyLT_ne {x y : Option Nat} (h : keyLT x y = true) : x ≠ y := by
  cases x <;> cases y <;> simp [keyLT] at * <;> omega

theorem edgeLE_total (e1 e2 : Line × Line) :
    edgeLE e1 e2 = true ∨ edgeLE e2 e1 = true := by
  unfold edgeLE
  by_cases h : numKey e1.1 = numKey e2.1
  · rw [if_pos h, if_pos h.symm]
    exact keyLE_total _ _
  · rw [if_neg h, if_neg (Ne.symm h)]
    exact keyLT_total_of_ne h

theorem edgeLE_trans (e1 e2 e3 : Line × Line) (h12 : edgeLE e1 e2 = true)
    (h23 : edgeLE e2 e3 = true) : edgeLE e1 e3 = true := by
  unfold edgeLE at *
  by_cases h1 : numKey e1.1 = numKey e2.1 <;>
    by_cases h2 : numKey e2.1 = numKey e3.1
  · rw [if_pos h1] at h12
    rw [if_pos h2] at h23
    rw [if_pos (h1.trans h2)]
    exact keyLE_trans h12 h23
  · rw [if_neg h2] at h23
    have hne : numKey e1.1 ≠ numKey e3.1 := by
      rw [h1]; exact keyLT_ne h23
    rw [if_neg hne, h1]
    exact h23
  · rw [if_neg h1] at h12
    have hne : numKey e1.1 ≠ numKey e3.1 := by
      rw [← h2]; exact keyLT_ne h12
    rw [if_neg hne, ← h2]
    exact h12
  · rw [if_neg h1] at h12
    rw [if_neg h2] at h23
    have h13 := keyLT_trans h12 h23
    rw [if_neg (keyLT_ne h13)]
    exact h13

instance instEdgeLETotal : IsTotal (Line × Line) (fun e1 e2 => edgeLE e1 e2 = true) :=
  ⟨edgeLE_total⟩

instance instEdgeLETrans : IsTrans (Line × Line) (fun e1 e2 => edgeLE e1 e2 = true) :=
  ⟨edgeLE_trans⟩

theorem count_one_of_nodup_mem {l : List (Line × Line)} {e : Line × Line}
    (hn : l.Nodup) (he : e ∈ l) : l.count e = 1 := by
  induction l with
  | nil => cases he
  | cons x t ih =>
    rcases List.nodup_cons.1 hn with ⟨hx, ht⟩
    rcases List.mem_cons.1 he with rfl | he'
    · rw [List.count_cons_self]
      have h0 : t.count e = 0 := List.count_eq_zero.2 hx
      rw [h0]
    · have hne : e ≠ x := fun h => hx (h ▸ he')
      rw [List.count_cons_of_ne hne]
      exact ih ht he'

theorem mem_collapsedEdges {lines : List Line} {e : Line × Line} :
    e ∈ collapsedEdges lines ↔ e ∈ collectedPairs lines := by
  unfold collapsedEdges
  rw [List.mem_insertionSort]
  exact mem_pyDedup

theorem nodup_collapsedEdges (lines : List Line) : (collapsedEdges lines).Nodup :=
  (List.perm_insertionSort _ _).nodup_iff.2 (nodup_pyDedup _)

/-! ## Claims C6, C7, C2, C10 -/

/-- C6: in `filter_internal_loops`, an intermediate node whose recorded
neighbour list is `N` contributes exactly the pairs `(N[i], N[j])` with
`i < j` (a full clique over its outer neighbours, uniformly in the list
length), and a list with at most one neighbour contributes nothing; the
third conjunct records that the collected edge pool is exactly the direct
edges plus these clique expansions. -/
theorem claim_C6_clique_expansion (N : List Line) :
    (N.length ≤ 1 → cliquePairs N = []) ∧
    (∀ a b : Line, (a, b) ∈ cliquePairs N ↔
      ∃ i j, i < j ∧ N.get? i = some a ∧ N.get? j = some b) ∧
    (∀ lines : List Line, collectedPairs lines =
      (runScan lines).direct ++
        (runScan lines).conns.flatMap fun kv => cliquePairs kv.2) := by
  refine ⟨?_, fun a b => mem_cliquePairs, fun _ => rfl⟩
  intro h
  cases N with
  | nil => rfl
  | cons x xs =>
    cases xs with
    | nil => rfl
    | cons y t => simp at h

/-- Witness for C6 at a singleton neighbour list. -/
theorem claim_C6_clique_expansion_witness : cliquePairs ["n5".data] = [] :=
  (claim_C6_clique_expansion ["n5".data]).1 (by decide)

/-- C7: the deduplicated edge list emitted by `filter_internal_loops` is
sorted by the key `(numKey fst, numKey snd)` — first run of decimal digits
of each endpoint, `none` (no digits) acting as plus infinity — primary on
the first endpoint, secondary on the second. -/
theorem claim_C7_sorted (lines : List Line) :
    List.Sorted (fun e1 e2 => edgeLE e1 e2 = true) (collapsedEdges lines) :=
  List.sorted_insertionSort _ _

/-- C2 (amended): deduplication in `filter_internal_loops` works on
ordered tuples, so each collected orientation appears exactly once in the
output edge list — but `A -- B;` and `B -- A;` are distinct tuples and are
not merged (see the counterexample). -/
theorem claim_C2_dedup (lines : List Line) :
    (collapsedEdges lines).Nodup ∧
    (∀ e : Line × Line, e ∈ collapsedEdges lines ↔ e ∈ collectedPairs lines) ∧
    (∀ e : Line × Line, e ∈ collectedPairs lines →
      (collapsedEdges lines).count e = 1) := by
  refine ⟨nodup_collapsedEdges lines, fun e => mem_collapsedEdges, ?_⟩
  intro e he
  exact count_one_of_nodup_mem (nodup_collapsedEdges lines) (mem_collapsedEdges.2 he)

/-- Witness for C2 (amended): the duplicated orientation `n1 -- n2` occurs
exactly once in the collapsed edge list of `c2cex`. -/
theorem claim_C2_dedup_witness :
    (collapsedEdges c2cex).count ("n1".data, "n2".data) = 1 :=
  (claim_C2_dedup c2cex).2.2 _ (by decide)

/-- Counterexample to C2 as stated: an input containing both `n1 -- n2;`
and `n2 -- n1;` collapses to an output with TWO edge lines between `n1`
and `n2`, one per orientation. -/
theorem claim_C2_cex :
    filter_internal_loops c2cex =
      ["graph G \x7b".data, "    n1 -- n2;".data, "".data,
       "    n2 -- n1;".data, "".data, "\x7d".data] ∧
    (filter_internal_loops c2cex).countP
        (fun l => (edgeMatchL l == some ("n1".data, "n2".data)) ||
                  (edgeMatchL l == some ("n2".data, "n1".data))) = 2 :=
  ⟨by decide, by decide⟩

/-- C10: on the connected two-node graph `g10` with an empty weight table,
every distinct pair of nodes is joined by a path, yet
`find_longest_path_by_bases` returns the empty path with metric 0: a base
sum of 0 never strictly improves on the initial best of 0. -/
theorem claim_C10_zero_bases :
    2 ≤ g10.nodes.length ∧
    (∀ u ∈ g10.nodes, ∀ v ∈ g10.nodes, u ≠ v → shortest_path g10 u v ≠ none) ∧
    find_longest_path_by_bases g10 [] = ([], 0) :=
  ⟨by decide, by decide, by decide⟩

/-! ## Claim C8 -/

theorem edgeMatch_format {lead a b : Line} {c1 c2 : Char}
    (hlead : ∀ c ∈ lead, isWS c = true) (ha : wsFree a) (ha0 : a ≠ [])
    (hb : wsFree b) (hb0 : b ≠ []) (h1 : isWS c1 = true) (h2 : isWS c2 = true) :
    edgeMatchL (lead ++ a ++ c1 :: '-' :: '-' :: c2 :: (b ++ [';'])) = some (a, b) := by
  obtain ⟨a0, a', rfl⟩ : ∃ a0 a', a = a0 :: a' := by
    cases a with
    | nil => exact absurd rfl ha0
    | cons a0 a' => exact ⟨a0, a', rfl⟩
  have hdrop : (lead ++ (a0 :: a') ++ c1 :: '-' :: '-' :: c2 :: (b ++ [';'])).dropWhile isWS
      = (a0 :: a') ++ c1 :: '-' :: '-' :: c2 :: (b ++ [';']) := by
    rw [List.append_assoc, dropWhile_append_all hlead]
    exact dropWhile_cons_false (ha a0 (List.mem_cons_self _ _))
  have htake : ((a0 :: a') ++ c1 :: '-' :: '-' :: c2 :: (b ++ [';'])).takeWhile
        (fun c => !isWS c) = a0 :: a' := by
    refine takeWhile_append_stop (fun c hc => by simp [ha c hc]) (by simp [h1])
  have hrun : (b ++ [';']).takeWhile (fun c => !isWS c) = b ++ [';'] := by
    refine takeWhile_all fun c hc => ?_
    rcases List.mem_append.1 hc with h | h
    · simp [hb c h]
    · rcases List.mem_singleton.1 h with rfl
      decide
  have hbne : b.isEmpty = false := by
    cases b with
    | nil => exact absurd rfl hb0
    | cons _ _ => rfl
  simp only [edgeMatchL, hdrop, htake, List.isEmpty_cons, Bool.false_eq_true,
    if_false, List.drop_left, h1, h2, Bool.and_self, if_true, hrun,
    lastSemiPre_append_semi, hbne]

theorem parseStep_fst (acc : Graph × List (Line × Nat)) (line : Line) :
    (parseStep acc line).1 =
      match edgeMatchL line with
      | some (a, b) => add_edge acc.1 (stripL a) (stripL b)
      | none => acc.1 := by
  rcases he : edgeMatchL line with _ | ⟨a, b⟩ <;>
    rcases hn : nodeSearchL line with _ | ⟨c, n⟩ <;>
      simp [parseStep, he, hn]

theorem adjacent_add_edge_self (g : Graph) (a b : Line) :
    adjacent (add_edge g a b) a b := by
  simp only [add_edge, adjacent]
  by_cases h : (a, b) ∈ (addNode (addNode g a) b).edges ∨
      (b, a) ∈ (addNode (addNode g a) b).edges
  · rw [if_pos h]
    exact h
  · rw [if_neg h]
    left
    exact List.mem_append_right _ (List.mem_singleton.2 rfl)

/-- C8 (amended): a line of the shape
`⟨whitespace⟩ A ⟨one ws⟩--⟨one ws⟩ B ;` with non-whitespace nonempty
tokens `A`, `B` is recognised by the edge pattern with groups `(A, B)`,
and parsing such a line adds the edge `{A, B}` to the graph.  (The
original claim allowed ARBITRARY positive whitespace around `--`; the
pattern `\s--\s` accepts exactly one whitespace character on each side —
see the counterexample.) -/
theorem claim_C8_edge_line (lead a b : Line) (c1 c2 : Char)
    (hlead : ∀ c ∈ lead, isWS c = true) (ha : wsFree a) (ha0 : a ≠ [])
    (hb : wsFree b) (hb0 : b ≠ []) (h1 : isWS c1 = true) (h2 : isWS c2 = true) :
    edgeMatchL (lead ++ a ++ c1 :: '-' :: '-' :: c2 :: (b ++ [';'])) = some (a, b) ∧
    adjacent
      (parse_graph_with_bases
        [lead ++ a ++ c1 :: '-' :: '-' :: c2 :: (b ++ [';'])]).1 a b := by
  have hm := edgeMatch_format hlead ha ha0 hb hb0 h1 h2
  refine ⟨hm, ?_⟩
  have hg : (parse_graph_with_bases
      [lead ++ a ++ c1 :: '-' :: '-' :: c2 :: (b ++ [';'])]).1 =
      add_edge emptyG (stripL a) (stripL b) := by
    show (parseStep (emptyG, []) _).1 = _
    rw [parseStep_fst, hm]
  rw [hg, stripL_wsFree ha, stripL_wsFree hb]
  exact adjacent_add_edge_self _ _ _

/-- Witness for C8 (amended) on the line `n1 -- n2;`. -/
theorem claim_C8_edge_line_witness :
    edgeMatchL (([] : Line) ++ "n1".data ++
        ' ' :: '-' :: '-' :: ' ' :: ("n2".data ++ [';'])) =
      some ("n1".data, "n2".data) ∧
    adjacent
      (parse_graph_with_bases
        [([] : Line) ++ "n1".data ++
          ' ' :: '-' :: '-' :: ' ' :: ("n2".data ++ [';'])]).1
      "n1".data "n2".data :=
  claim_C8_edge_line [] "n1".data "n2".data ' ' ' '
    (by decide) (by decide) (by decide) (by decide) (by decide) (by decide) (by decide)

/-- Counterexample to C8 as stated: with TWO spaces on each side of `--`
the pattern `\s*(\S+)\s--\s(\S+);` does not match, and the parser adds no
edge at all. -/
theorem claim_C8_cex :
    edgeMatchL "n1  --  n2;".data = none ∧
    (parse_graph_with_bases ["n1  --  n2;".data]).1.edges = [] :=
  ⟨by decide, by decide⟩

/-! ## Path machinery: soundness/completeness of the shortest-path model -/

theorem mem_of_getLast?_eq {α : Type} {l : List α} {a : α}
    (h : l.getLast? = some a) : a ∈ l := by
  induction l with
  | nil => simp at h
  | cons x t ih =>
    cases t with
    | nil =>
      simp only [List.getLast?_singleton, Option.some_inj] at h
      exact h ▸ List.mem_singleton.2 rfl
    | cons y s =>
      rw [List.getLast?_cons_cons] at h
      exact List.mem_cons_of_mem _ (ih h)

theorem mem_nbrs {g : Graph} {u w : Line} : w ∈ nbrs g u ↔ adjacent g u w := by
  unfold nbrs adjacent
  rw [List.mem_filterMap]
  constructor
  · rintro ⟨⟨x, y⟩, he, hw⟩
    by_cases h1 : x = u
    · rw [if_pos h1] at hw
      cases hw
      subst h1
      exact Or.inl he
    · rw [if_neg h1] at hw
      by_cases h2 : y = u
      · rw [if_pos h2] at hw
        cases hw
        subst h2
        exact Or.inr he
      · rw [if_neg h2] at hw
        cases hw
  · intro h
    rcases h with h | h
    · exact ⟨(u, w), h, by simp⟩
    · by_cases hw : w = u
      · exact ⟨(w, u), h, by simp [hw]⟩
      · exact ⟨(w, u), h, by simp [hw]⟩

theorem adjacent_mem {g : Graph} {a b : Line} (h : adjacent g a b) :
    a ∈ g.nodes ∧ b ∈ g.nodes := by
  rcases h with h | h
  · exact g.edges_mem _ h
  · exact ⟨(g.edges_mem _ h).2, (g.edges_mem _ h).1⟩

theorem simplePathsAux_sound {g : Graph} :
    ∀ (fuel : Nat) (visited : List Line) (u v : Line) (p : List Line),
      p ∈ simplePathsAux g fuel visited u v → u ∉ visited →
      IsPath g u v p ∧ ∀ x ∈ p, x ∉ visited := by
  intro fuel
  induction fuel with
  | zero =>
    intro visited u v p hp _
    simp [simplePathsAux] at hp
  | succ f ih =>
    intro visited u v p hp hu
    simp only [simplePathsAux] at hp
    by_cases huv : u = v
    · rw [if_pos huv] at hp
      rcases List.mem_singleton.1 hp with rfl
      subst huv
      refine ⟨⟨rfl, rfl, List.chain'_singleton _, List.nodup_singleton _⟩, ?_⟩
      intro x hx
      rcases List.mem_singleton.1 hx with rfl
      exact hu
    · rw [if_neg huv] at hp
      rw [List.mem_flatMap] at hp
      obtain ⟨w, hw, hpmem⟩ := hp
      rw [List.mem_map] at hpmem
      obtain ⟨q, hq, rfl⟩ := hpmem
      obtain ⟨hwn, hwnv⟩ := List.mem_filter.1 hw
      have hwv : w ∉ u :: visited := by simpa using hwnv
      obtain ⟨⟨hhead, hlast, hchain, hnodup⟩, havoid⟩ := ih (u :: visited) w v q hq hwv
      obtain ⟨q0, q', rfl⟩ : ∃ q0 q', q = q0 :: q' := by
        cases q with
        | nil => simp at hhead
        | cons q0 q' => exact ⟨q0, q', rfl⟩
      have hq0 : q0 = w := by simpa using hhead
      subst hq0
      refine ⟨⟨rfl, ?_, ?_, ?_⟩, ?_⟩
      · rw [List.getLast?_cons_cons]
        exact hlast
      · rw [List.chain'_cons]
        exact ⟨mem_nbrs.1 hwn, hchain⟩
      · rw [List.nodup_cons]
        refine ⟨fun hu_mem => havoid u hu_mem (List.mem_cons_self _ _), hnodup⟩
      · intro x hx
        rcases List.mem_cons.1 hx with rfl | hx
        · exact hu
        · exact fun hxv => havoid x hx (List.mem_cons_of_mem _ hxv)

theorem simplePathsAux_complete {g : Graph} :
    ∀ (fuel : Nat) (visited : List Line) (u v : Line) (p : List Line),
      IsPath g u v p → p.length ≤ fuel → (∀ x ∈ p, x ∉ visited) →
      p ∈ simplePathsAux g fuel visited u v := by
  intro fuel
  induction fuel with
  | zero =>
    intro visited u v p hp hl _
    obtain ⟨hhead, _, _, _⟩ := hp
    cases p with
    | nil => simp at hhead
    | cons x t => simp at hl
  | succ f ih =>
    intro visited u v p hp hl havoid
    obtain ⟨hhead, hlast, hchain, hnodup⟩ := hp
    obtain ⟨p0, p', rfl⟩ : ∃ p0 p', p = p0 :: p' := by
      cases p with
      | nil => simp at hhead
      | cons p0 p' => exact ⟨p0, p', rfl⟩
    have hp0 : u = p0 := (by simpa using hhead : p0 = u).symm
    subst hp0
    simp only [simplePathsAux]
    by_cases huv : u = v
    · rw [if_pos huv]
      cases p' with
      | nil => exact List.mem_singleton.2 rfl
      | cons w q =>
        exfalso
        rw [List.getLast?_cons_cons] at hlast
        have hv : v ∈ w :: q := mem_of_getLast?_eq hlast
        rw [← huv] at hv
        exact (List.nodup_cons.1 hnodup).1 hv
    · rw [if_neg huv]
      cases p' with
      | nil =>
        exfalso
        simp only [List.getLast?_singleton, Option.some_inj] at hlast
        exact huv hlast
      | cons w q =>
        rw [List.mem_flatMap]
        have hnotmem : u ∉ w :: q := (List.nodup_cons.1 hnodup).1
        refine ⟨w, ?_, ?_⟩
        · rw [List.mem_filter]
          refine ⟨mem_nbrs.2 (List.chain'_cons.1 hchain).1, ?_⟩
          have hwu : w ≠ u := fun h => hnotmem (h ▸ List.mem_cons_self _ _)
          have hwv : w ∉ visited := havoid w (List.mem_cons_of_mem _ (List.mem_cons_self _ _))
          simp [hwu, hwv]
        · rw [List.mem_map]
          refine ⟨w :: q, ?_, rfl⟩
          apply ih (u :: visited) w v (w :: q)
          · refine ⟨rfl, ?_, (List.chain'_cons.1 hchain).2, (List.nodup_cons.1 hnodup).2⟩
            rw [List.getLast?_cons_cons] at hlast
            exact hlast
          · simpa using Nat.le_of_succ_le_succ (by simpa using hl)
          · intro x hx
            intro hxm
            rcases List.mem_cons.1 hxm with rfl | hxv
            · exact hnotmem hx
            · exact havoid x (List.mem_cons_of_mem _ hx) hxv

theorem pickShortest_eq_none {ps : List (List Line)} :
    pickShortest ps = none ↔ ps = [] := by
  cases ps with
  | nil => simp [pickShortest]
  | cons q qs =>
    rcases hrec : pickShortest qs with _ | r
    · simp [pickShortest, hrec]
    · simp only [pickShortest, hrec]
      by_cases hlt : r.length < q.length
      · rw [if_pos hlt]
        simp
      · rw [if_neg hlt]
        simp

theorem pickShortest_mem : ∀ {ps : List (List Line)} {p : List Line},
    pickShortest ps = some p → p ∈ ps := by
  intro ps
  induction ps with
  | nil => intro p h; simp [pickShortest] at h
  | cons q qs ih =>
    intro p h
    rcases hrec : pickShortest qs with _ | r
    · simp only [pickShortest, hrec] at h
      cases h
      exact List.mem_cons_self _ _
    · simp only [pickShortest, hrec] at h
      by_cases hlt : r.length < q.length
      · rw [if_pos hlt] at h
        cases h
        exact List.mem_cons_of_mem _ (ih hrec)
      · rw [if_neg hlt] at h
        cases h
        exact List.mem_cons_self _ _

theorem pickShortest_min : ∀ {ps : List (List Line)} {p : List Line},
    pickShortest ps = some p → ∀ q ∈ ps, p.length ≤ q.length := by
  intro ps
  induction ps with
  | nil => intro p h; simp [pickShortest] at h
  | cons q qs ih =>
    intro p h r hr
    rcases hrec : pickShortest qs with _ | s
    · simp only [pickShortest, hrec] at h
      cases h
      have hqs : qs = [] := pickShortest_eq_none.1 hrec
      subst hqs
      rcases List.mem_cons.1 hr with rfl | hr
      · exact Nat.le_refl _
      · cases hr
    · simp only [pickShortest, hrec] at h
      by_cases hlt : s.length < q.length
      · rw [if_pos hlt] at h
        cases h
        rcases List.mem_cons.1 hr with rfl | hr
        · exact Nat.le_of_lt hlt
        · exact ih hrec r hr
      · rw [if_neg hlt] at h
        cases h
        rcases List.mem_cons.1 hr with rfl | hr
        · exact Nat.le_refl _
        · exact Nat.le_trans (Nat.le_of_not_lt hlt) (ih hrec r hr)

theorem isPath_two_le {g : Graph} {u v : Line} {p : List Line}
    (hp : IsPath g u v p) (hne : u ≠ v) : 2 ≤ p.length := by
  obtain ⟨hh, hl, _, _⟩ := hp
  cases p with
  | nil => simp at hh
  | cons x t =>
    cases t with
    | nil =>
      exfalso
      simp only [List.head?_cons, Option.some_inj] at hh
      simp only [List.getLast?_singleton, Option.some_inj] at hl
      exact hne (hh ▸ hl ▸ rfl)
    | cons y s => simp

theorem isPath_ne_nil {g : Graph} {u v : Line} {p : List Line}
    (hp : IsPath g u v p) : p ≠ [] := by
  obtain ⟨hh, _, _, _⟩ := hp
  cases p with
  | nil => simp at hh
  | cons x t => simp

theorem chain_two_subset {g : Graph} : ∀ (s : List Line) (a b : Line),
    List.Chain' (adjacent g) (a :: b :: s) → ∀ x ∈ a :: b :: s, x ∈ g.nodes := by
  intro s
  induction s with
  | nil =>
    intro a b hch x hx
    have hab := (List.chain'_cons.1 hch).1
    rcases List.mem_cons.1 hx with rfl | hx
    · exact (adjacent_mem hab).1
    · rcases List.mem_singleton.1 hx with rfl
      exact (adjacent_mem hab).2
  | cons c r ih =>
    intro a b hch x hx
    obtain ⟨hab, hrest⟩ := List.chain'_cons.1 hch
    rcases List.mem_cons.1 hx with rfl | hx
    · exact (adjacent_mem hab).1
    · exact ih b c hrest x hx

theorem path_subset_nodes {g : Graph} {u v : Line} {p : List Line}
    (hp : IsPath g u v p) (h2 : 2 ≤ p.length) : ∀ x ∈ p, x ∈ g.nodes := by
  obtain ⟨_, _, hchain, _⟩ := hp
  cases p with
  | nil => intro x hx; cases hx
  | cons a t =>
    cases t with
    | nil => simp at h2
    | cons b s => exact chain_two_subset s a b hchain

theorem path_length_le_nodes {g : Graph} {u v : Line} {p : List Line}
    (hp : IsPath g u v p) (h2 : 2 ≤ p.length) : p.length ≤ g.nodes.length := by
  have hsub : p ⊆ g.nodes := fun x hx => path_subset_nodes hp h2 x hx
  obtain ⟨_, _, _, hnodup⟩ := hp
  exact (List.subperm_of_subset hnodup hsub).length_le

theorem shortest_path_sound {g : Graph} {u v : Line} {p : List Line}
    (h : shortest_path g u v = some p) : IsPath g u v p :=
  (simplePathsAux_sound _ [] u v p (pickShortest_mem h) (List.not_mem_nil u)).1

theorem shortest_path_complete {g : Graph} {u v : Line} {q : List Line}
    (hne : u ≠ v) (hq : IsPath g u v q) : ∃ p, shortest_path g u v = some p := by
  have h2 : 2 ≤ q.length := isPath_two_le hq hne
  have hmem : q ∈ simplePaths g u v :=
    simplePathsAux_complete _ [] u v q hq (path_length_le_nodes hq h2)
      (fun x _ hx => List.not_mem_nil x hx)
  rcases hps : shortest_path g u v with _ | p
  · exfalso
    have : simplePaths g u v = [] := pickShortest_eq_none.1 hps
    rw [this] at hmem
    cases hmem
  · exact ⟨p, rfl⟩

theorem shortest_path_min {g : Graph} {u v : Line} {p q : List Line}
    (hne : u ≠ v) (h : shortest_path g u v = some p) (hq : IsPath g u v q) :
    p.length ≤ q.length := by
  have h2 : 2 ≤ q.length := isPath_two_le hq hne
  exact pickShortest_min h q
    (simplePathsAux_complete _ [] u v q hq (path_length_le_nodes hq h2)
      (fun x _ hx => List.not_mem_nil x hx))

/-! ## The search loops as folds over the candidate list -/

theorem foldl_skip_none {β γ : Type} (f : Line × Line → Option β) (g : γ → β → γ)
    (l : List (Line × Line)) (init : γ) :
    l.foldl (fun acc x => match f x with | some y => g acc y | none => acc) init
      = (l.filterMap f).foldl g init := by
  induction l generalizing init with
  | nil => rfl
  | cons x t ih =>
    rw [List.foldl_cons]
    cases hf : f x with
    | none => simp only [List.filterMap_cons, hf, ih]
    | some y => simp only [List.filterMap_cons, hf, List.foldl_cons, ih]

theorem le_maxNat {l : List Nat} {x : Nat} (h : x ∈ l) : x ≤ maxNat l := by
  induction l with
  | nil => cases h
  | cons y t ih =>
    simp only [maxNat, List.foldr_cons]
    rcases List.mem_cons.1 h with rfl | h
    · exact Nat.le_max_left _ _
    · exact Nat.le_trans (ih h) (Nat.le_max_right _ _)

theorem foldl_strict_snd (m : List Line → Nat) (cs : List (List Line))
    (acc : List Line × Nat) :
    (cs.foldl (fun acc p => if m p > acc.2 then (p, m p) else acc) acc).2
      = max acc.2 (maxNat (cs.map m)) := by
  induction cs generalizing acc with
  | nil => simp [maxNat]
  | cons p ps ih =>
    rw [List.foldl_cons, ih]
    simp only [maxNat, List.map_cons, List.foldr_cons]
    by_cases h : m p > acc.2
    · rw [if_pos h]
      simp only
      omega
    · rw [if_neg h]
      omega

theorem foldl_strict_noupd (m : List Line → Nat) (cs : List (List Line))
    (acc : List Line × Nat) (h : ∀ p ∈ cs, m p ≤ acc.2) :
    cs.foldl (fun acc p => if m p > acc.2 then (p, m p) else acc) acc = acc := by
  induction cs with
  | nil => rfl
  | cons p ps ih =>
    rw [List.foldl_cons, if_neg (by
      have := h p (List.mem_cons_self _ _)
      omega)]
    exact ih fun q hq => h q (List.mem_cons_of_mem _ hq)

theorem foldl_strict_first (m : List Line → Nat) (cs : List (List Line)) :
    ∀ (acc : List Line × Nat), acc.2 < maxNat (cs.map m) →
      ∃ p, cs.find? (fun q => m q == maxNat (cs.map m)) = some p ∧
        cs.foldl (fun acc p => if m p > acc.2 then (p, m p) else acc) acc = (p, m p) ∧
        m p = maxNat (cs.map m) := by
  induction cs with
  | nil =>
    intro acc h
    simp [maxNat] at h
  | cons p ps ih =>
    intro acc h
    have hMdef : maxNat ((p :: ps).map m) = max (m p) (maxNat (ps.map m)) := by
      simp [maxNat]
    by_cases hp : m p = maxNat ((p :: ps).map m)
    · have hfind : (p :: ps).find? (fun q => m q == maxNat ((p :: ps).map m)) = some p := by
        exact List.find?_cons_of_pos ps (beq_iff_eq.2 hp)
      have hgt : m p > acc.2 := by rw [hp]; exact h
      have hrest : ∀ q ∈ ps, m q ≤ m p := by
        intro q hq
        rw [hp, hMdef]
        exact Nat.le_trans (le_maxNat (List.mem_map_of_mem m hq)) (Nat.le_max_right _ _)
      rw [List.foldl_cons, if_pos hgt, foldl_strict_noupd m ps (p, m p) hrest]
      exact ⟨p, hfind, rfl, hp⟩
    · have hlt : m p < maxNat ((p :: ps).map m) := by
        have : m p ≤ maxNat ((p :: ps).map m) := by
          rw [hMdef]; exact Nat.le_max_left _ _
        omega
      have hM : maxNat ((p :: ps).map m) = maxNat (ps.map m) := by
        rw [hMdef] at hlt ⊢
        omega
      have hacc' : (if m p > acc.2 then (p, m p) else acc).2 < maxNat (ps.map m) := by
        rw [← hM]
        by_cases hgt : m p > acc.2
        · rw [if_pos hgt]
          exact hlt
        · rw [if_neg hgt]
          exact h
      obtain ⟨r, hfind, hfold, hmr⟩ := ih _ hacc'
      refine ⟨r, ?_, ?_, ?_⟩
      · rw [List.find?_cons_of_neg ps
          (by simp only [beq_eq_false_iff_ne.2 hp, Bool.false_eq_true, not_false_iff])]
        simp only [hM]
        exact hfind
      · rw [List.foldl_cons]
        exact hfold
      · rw [hM]
        exact hmr

theorem foldl_pairs_edges (g : Graph) (l : List (Line × Line)) (init : List Line × Nat) :
    l.foldl (fun acc pr => match shortest_path g pr.1 pr.2 with
        | some p => if p.length > acc.2 then (p, p.length) else acc
        | none => acc) init
      = (l.filterMap fun pr => shortest_path g pr.1 pr.2).foldl
          (fun acc p => if p.length > acc.2 then (p, p.length) else acc) init := by
  induction l generalizing init with
  | nil => rfl
  | cons x t ih =>
    rw [List.foldl_cons]
    cases hf : shortest_path g x.1 x.2 with
    | none => simp only [List.filterMap_cons, hf, ih]
    | some y => simp only [List.filterMap_cons, hf, List.foldl_cons, ih]

theorem foldl_pairs_bases (g : Graph) (bc : List (Line × Nat))
    (l : List (Line × Line)) (init : List Line × Nat) :
    l.foldl (fun acc pr => match shortest_path g pr.1 pr.2 with
        | some p => if baseSum bc p > acc.2 then (p, baseSum bc p) else acc
        | none => acc) init
      = (l.filterMap fun pr => shortest_path g pr.1 pr.2).foldl
          (fun acc p => if baseSum bc p > acc.2 then (p, baseSum bc p) else acc) init := by
  induction l generalizing init with
  | nil => rfl
  | cons x t ih =>
    rw [List.foldl_cons]
    cases hf : shortest_path g x.1 x.2 with
    | none => simp only [List.filterMap_cons, hf, ih]
    | some y => simp only [List.filterMap_cons, hf, List.foldl_cons, ih]

theorem find_edges_eq (g : Graph) :
    find_longest_path_by_edges g =
      (((candidates g).foldl (fun acc p => if p.length > acc.2 then (p, p.length) else acc)
          ((([] : List Line), 0) : List Line × Nat)).1,
       ((((candidates g).foldl (fun acc p => if p.length > acc.2 then (p, p.length) else acc)
          ((([] : List Line), 0) : List Line × Nat)).2 : Nat) : Int) - 1) := by
  simp only [find_longest_path_by_edges, candidates]
  rw [foldl_pairs_edges g (orderedPairs g.nodes) ([], 0)]

theorem find_bases_eq (g : Graph) (bc : List (Line × Nat)) :
    find_longest_path_by_bases g bc =
      (candidates g).foldl
        (fun acc p => if baseSum bc p > acc.2 then (p, baseSum bc p) else acc)
        (([] : List Line), 0) := by
  simp only [find_longest_path_by_bases, candidates]
  rw [foldl_pairs_bases g bc (orderedPairs g.nodes) ([], 0)]

theorem orderedPairs_short {ns : List Line} (h : ns.length < 2) :
    orderedPairs ns = [] := by
  cases ns with
  | nil => rfl
  | cons x t =>
    cases t with
    | nil => simp [orderedPairs]
    | cons y s =>
      exfalso
      simp at h
      omega

theorem mem_orderedPairs {ns : List Line} {u v : Line} :
    (u, v) ∈ orderedPairs ns ↔ u ∈ ns ∧ v ∈ ns ∧ v ≠ u := by
  unfold orderedPairs
  rw [List.mem_flatMap]
  constructor
  · rintro ⟨w, hw, hm⟩
    rw [List.mem_map] at hm
    obtain ⟨z, hz, heq⟩ := hm
    obtain ⟨hz1, hz2⟩ := List.mem_filter.1 hz
    obtain ⟨rfl, rfl⟩ : w = u ∧ z = v := ⟨congrArg Prod.fst heq, congrArg Prod.snd heq⟩
    exact ⟨hw, hz1, by simpa using hz2⟩
  · rintro ⟨hu, hv, hne⟩
    exact ⟨u, hu, List.mem_map.2 ⟨v, List.mem_filter.2 ⟨hv, by simpa using hne⟩, rfl⟩⟩

/-! ## Claims C1 and C4 -/

/-- C1 (amended): on a graph with fewer than two nodes, or one where no
pair of distinct nodes is joined by any path, `find_longest_path_by_bases`
returns `([], 0)` as the claim says, but `find_longest_path_by_edges`
returns `([], -1)`: it computes `max_length - 1` and the empty search
leaves `max_length = 0`.  (The original claim asserted metric 0 for both —
see the counterexample.) -/
theorem claim_C1_no_result (g : Graph)
    (h : g.nodes.length < 2 ∨
      ∀ u v, u ∈ g.nodes → v ∈ g.nodes → u ≠ v → ∀ p, ¬ IsPath g u v p) :
    find_longest_path_by_edges g = ([], -1) ∧
    ∀ bc, find_longest_path_by_bases g bc = ([], 0) := by
  have hcand : candidates g = [] := by
    rcases h with h | h
    · unfold candidates
      rw [orderedPairs_short h]
      rfl
    · unfold candidates
      rw [List.filterMap_eq_nil]
      rintro ⟨u, v⟩ hpr
      obtain ⟨hu, hv, hne⟩ := mem_orderedPairs.1 hpr
      rcases hsp : shortest_path g u v with _ | p
      · rfl
      · exact absurd (shortest_path_sound hsp) (h u v hu hv (Ne.symm hne) p)
  constructor
  · rw [find_edges_eq, hcand]
    rfl
  · intro bc
    rw [find_bases_eq, hcand]
    rfl

/-- Witness for C1 (amended) on the empty graph. -/
theorem claim_C1_no_result_witness :
    find_longest_path_by_edges emptyG = ([], -1) ∧
    find_longest_path_by_bases emptyG [] = ([], 0) :=
  ⟨(claim_C1_no_result emptyG (Or.inl (by decide))).1,
   (claim_C1_no_result emptyG (Or.inl (by decide))).2 []⟩

/-- Counterexample to C1 as stated: the empty graph has fewer than two
nodes, and the edge-mode search returns metric `-1`, not `0`. -/
theorem claim_C1_cex :
    find_longest_path_by_edges emptyG = ([], -1) ∧
    (([] : List Line), (-1 : Int)) ≠ (([] : List Line), (0 : Int)) :=
  ⟨by decide, by decide⟩

/-- C4 (amended): both search loops replace the best candidate only on
strict improvement, so the result is the shortest path found for the
EARLIEST pair (in node-insertion iteration order over ordered pairs)
whose metric attains the maximum, and later ties never change it — in edge
mode unconditionally whenever any pair is connected, in base mode provided
the maximal base sum is positive (when every found path has base sum 0 the
empty path is returned instead; see the counterexample and C10). -/
theorem claim_C4_first_max (g : Graph) (bc : List (Line × Nat)) :
    (candidates g ≠ [] →
      ∃ p, (candidates g).find? (fun q => q.length == maxLenC g) = some p ∧
        find_longest_path_by_edges g = (p, (p.length : Int) - 1)) ∧
    (0 < maxBaseC g bc →
      ∃ p, (candidates g).find? (fun q => baseSum bc q == maxBaseC g bc) = some p ∧
        find_longest_path_by_bases g bc = (p, baseSum bc p)) := by
  constructor
  · intro hne
    have hpos : 0 < maxLenC g := by
      obtain ⟨p0, hp0⟩ := List.exists_mem_of_ne_nil _ hne
      have hnil : p0 ≠ [] := by
        obtain ⟨pr, _, hsp⟩ := List.mem_filterMap.1 hp0
        exact isPath_ne_nil (shortest_path_sound hsp)
      have hlen : 1 ≤ p0.length := by
        cases p0 with
        | nil => exact absurd rfl hnil
        | cons _ _ => simp
      exact Nat.lt_of_lt_of_le hlen (le_maxNat (List.mem_map_of_mem _ hp0))
    obtain ⟨p, hfind, hfold, hm⟩ :=
      foldl_strict_first List.length (candidates g) ([], 0) hpos
    refine ⟨p, hfind, ?_⟩
    rw [find_edges_eq, hfold]
  · intro hpos
    obtain ⟨p, hfind, hfold, hm⟩ :=
      foldl_strict_first (baseSum bc) (candidates g) ([], 0) hpos
    refine ⟨p, hfind, ?_⟩
    rw [find_bases_eq, hfold]

/-- Witness for C4 (amended) on the two-node graph `g10`, in both modes. -/
theorem claim_C4_first_max_witness :
    (∃ p, (candidates g10).find? (fun q => q.length == maxLenC g10) = some p ∧
      find_longest_path_by_edges g10 = (p, (p.length : Int) - 1)) ∧
    (∃ p, (candidates g10).find? (fun q => baseSum bc10 q == maxBaseC g10 bc10) = some p ∧
      find_longest_path_by_bases g10 bc10 = (p, baseSum bc10 p)) :=
  ⟨(claim_C4_first_max g10 bc10).1 (by decide),
   (claim_C4_first_max g10 bc10).2 (by decide)⟩

/-- Counterexample to C4 as stated: on `g10` with an empty weight table the
maximal base-sum metric over the found candidates is 0, attained first by
the candidate `[n1, n2]`, yet the base-mode search returns the empty path:
a tie with the initial best of 0 never wins. -/
theorem claim_C4_cex :
    maxBaseC g10 [] = 0 ∧
    (candidates g10).find? (fun q => baseSum [] q == maxBaseC g10 []) =
      some ["n1".data, "n2".data] ∧
    find_longest_path_by_bases g10 [] = ([], 0) ∧
    (([] : List Line) ≠ ["n1".data, "n2".data]) :=
  ⟨by decide, by decide, by decide, by decide⟩

/-! ## Claim C5 -/

/-- C5: for every connected graph with at least two nodes — in particular
for every tree, so no acyclicity hypothesis is needed and the claim's tree
case follows a fortiori — `find_longest_path_by_edges` returns a path that
is a path of the graph (simple, i.e. no repeated node, with every
consecutive pair an edge), is a shortest path between its two endpoints,
and whose endpoints realise the diameter: every pair of distinct nodes is
joined by some path no longer than it; the reported metric is its length
in edges. -/
theorem claim_C5_tree_diameter (g : Graph) (h2 : 2 ≤ g.nodes.length)
    (hconn : ∀ u v, u ∈ g.nodes → v ∈ g.nodes → u ≠ v → ∃ p, IsPath g u v p) :
    ∃ u v, u ∈ g.nodes ∧ v ∈ g.nodes ∧ u ≠ v ∧
      IsPath g u v (find_longest_path_by_edges g).1 ∧
      (∀ r, IsPath g u v r →
        (find_longest_path_by_edges g).1.length ≤ r.length) ∧
      (∀ a b, a ∈ g.nodes → b ∈ g.nodes → a ≠ b →
        ∃ q, IsPath g a b q ∧ q.length ≤ (find_longest_path_by_edges g).1.length) ∧
      (find_longest_path_by_edges g).2 =
        ((find_longest_path_by_edges g).1.length : Int) - 1 := by
  obtain ⟨x, y, rest, hns⟩ : ∃ x y rest, g.nodes = x :: y :: rest := by
    cases hng : g.nodes with
    | nil => rw [hng] at h2; simp at h2
    | cons x t =>
      cases t with
      | nil => rw [hng] at h2; simp at h2
      | cons y rest => exact ⟨x, y, rest, rfl⟩
  have hxy : x ≠ y := by
    have hnd := g.nodes_nodup
    rw [hns] at hnd
    have hx := (List.nodup_cons.1 hnd).1
    exact fun h => hx (h ▸ List.mem_cons_self _ _)
  have hxmem : x ∈ g.nodes := by rw [hns]; exact List.mem_cons_self _ _
  have hymem : y ∈ g.nodes := by
    rw [hns]; exact List.mem_cons_of_mem _ (List.mem_cons_self _ _)
  obtain ⟨p0, hp0⟩ := hconn x y hxmem hymem hxy
  obtain ⟨q0, hq0⟩ := shortest_path_complete hxy hp0
  have hq0c : q0 ∈ candidates g := by
    unfold candidates
    exact List.mem_filterMap.2
      ⟨(x, y), mem_orderedPairs.2 ⟨hxmem, hymem, Ne.symm hxy⟩, hq0⟩
  have hpos : 0 < maxLenC g := by
    have hnil : q0 ≠ [] := isPath_ne_nil (shortest_path_sound hq0)
    have hlen : 1 ≤ q0.length := by
      cases q0 with
      | nil => exact absurd rfl hnil
      | cons _ _ => simp
    exact Nat.lt_of_lt_of_le hlen (le_maxNat (List.mem_map_of_mem _ hq0c))
  obtain ⟨p, hfind, hfold, hm⟩ :=
    foldl_strict_first List.length (candidates g) ([], 0) hpos
  have hres : find_longest_path_by_edges g = (p, (p.length : Int) - 1) := by
    rw [find_edges_eq, hfold]
  have hpc : p ∈ candidates g := List.mem_of_find?_eq_some hfind
  obtain ⟨⟨u, v⟩, hpr, hsp⟩ := List.mem_filterMap.1 hpc
  obtain ⟨hu, hv, hvu⟩ := mem_orderedPairs.1 hpr
  have huv : u ≠ v := Ne.symm hvu
  rw [hres]
  refine ⟨u, v, hu, hv, huv, shortest_path_sound hsp, ?_, ?_, rfl⟩
  · intro r hr
    exact shortest_path_min huv hsp hr
  · intro a b ha hb hab
    obtain ⟨qa, hqa⟩ := hconn a b ha hb hab
    obtain ⟨q, hq⟩ := shortest_path_complete hab hqa
    have hqc : q ∈ candidates g := by
      unfold candidates
      exact List.mem_filterMap.2
        ⟨(a, b), mem_orderedPairs.2 ⟨ha, hb, Ne.symm hab⟩, hq⟩
    refine ⟨q, shortest_path_sound hq, ?_⟩
    exact Nat.le_trans (le_maxNat (List.mem_map_of_mem _ hqc)) (Nat.le_of_eq hm.symm)

/-- Witness for C5 on the two-node tree `g10`. -/
theorem claim_C5_tree_diameter_witness :
    ∃ u v, u ∈ g10.nodes ∧ v ∈ g10.nodes ∧ u ≠ v ∧
      IsPath g10 u v (find_longest_path_by_edges g10).1 ∧
      (∀ r, IsPath g10 u v r →
        (find_longest_path_by_edges g10).1.length ≤ r.length) ∧
      (∀ a b, a ∈ g10.nodes → b ∈ g10.nodes → a ≠ b →
        ∃ q, IsPath g10 a b q ∧ q.length ≤ (find_longest_path_by_edges g10).1.length) ∧
      (find_longest_path_by_edges g10).2 =
        ((find_longest_path_by_edges g10).1.length : Int) - 1 := by
  refine claim_C5_tree_diameter g10 (by decide) ?_
  intro u v hu hv huv
  have hn : g10.nodes = ["n1".data, "n2".data] := by decide
  rw [hn] at hu hv
  rcases List.mem_cons.1 hu with rfl | hu
  · rcases List.mem_cons.1 hv with rfl | hv
    · exact absurd rfl huv
    · rcases List.mem_singleton.1 hv with rfl
      exact ⟨["n1".data, "n2".data], by decide⟩
  · rcases List.mem_singleton.1 hu with rfl
    rcases List.mem_cons.1 hv with rfl | hv
    · exact ⟨["n2".data, "n1".data], by decide⟩
    · rcases List.mem_singleton.1 hv with rfl
      exact absurd rfl huv

/-! ## Claim C9 -/

theorem scanStep_kept_inside (st : ScanSt) (l : Line) :
    (scanStep st l).kept = st.kept ++ (if keepLine st.inside l then [l] else []) ∧
    (scanStep st l).inside = insideAfter st.inside l := by
  have hpfx : ¬ (graphOpen <+: closeBrace) := by decide
  by_cases h1 : graphOpen.isPrefixOf (stripL l) = true
  · simp [scanStep, keepLine, insideAfter, h1]
  · by_cases h2 : stripL l = closeBrace
    · by_cases h3 : st.inside = true
      all_goals
        cases he : edgeMatchL l with
        | none => simp [scanStep, keepLine, insideAfter, h1, h2, h3, he, hpfx]
        | some ab =>
          obtain ⟨a, b⟩ := ab
          by_cases h4 : 'i' ∈ a
          all_goals by_cases h5 : 'i' ∈ b
          all_goals simp [scanStep, keepLine, insideAfter, h1, h2, h3, h4, h5, he, hpfx]
    · by_cases h3 : st.inside = true
      all_goals
        cases he : edgeMatchL l with
        | none => simp [scanStep, keepLine, insideAfter, h1, h2, h3, he, hpfx]
        | some ab =>
          obtain ⟨a, b⟩ := ab
          by_cases h4 : 'i' ∈ a
          all_goals by_cases h5 : 'i' ∈ b
          all_goals simp [scanStep, keepLine, insideAfter, h1, h2, h3, h4, h5, he, hpfx]

theorem foldl_scan_kept : ∀ (ls : List Line) (st : ScanSt),
    (ls.foldl scanStep st).kept = st.kept ++ keptScan st.inside ls := by
  intro ls
  induction ls with
  | nil => intro st; simp [keptScan]
  | cons l t ih =>
    intro st
    rw [List.foldl_cons, ih]
    obtain ⟨hk, hi⟩ := scanStep_kept_inside st l
    rw [hk, hi, List.append_assoc]
    congr 1
    by_cases h : keepLine st.inside l = true
    · simp [keptScan, h]
    · simp [keptScan, h]

theorem keptScan_sublist : ∀ (ls : List Line) (b : Bool), List.Sublist (keptScan b ls) ls := by
  intro ls
  induction ls with
  | nil => intro b; simp [keptScan]
  | cons l t ih =>
    intro b
    unfold keptScan
    by_cases h : keepLine b l = true
    · rw [if_pos h]
      exact List.Sublist.cons₂ l (ih _)
    · rw [if_neg h]
      exact List.Sublist.cons l (ih _)

/-- C9 (amended): the output of `filter_internal_loops` is the kept lines
MINUS THEIR LAST ELEMENT (normally the closing brace, but the last kept
line whatever it is), followed, for each sorted edge, by the line
`    A -- B;` AND AN EMPTY LINE (the formatted element embeds a trailing
newline before the join), followed by `}`; the kept lines are exactly the
`keptScan` filter of the loop-declaration-free input — an order-preserving
subsequence, so non-edge lines pass through verbatim in original order.
(The original claim omitted the interspersed empty lines — see the
counterexample.) -/
theorem claim_C9_reassembly (lines : List Line) :
    filter_internal_loops lines =
      (keptScan false (filterLoopDecls lines)).dropLast
        ++ (collapsedEdges lines).flatMap (fun e => [fmtEdge e, ([] : Line)])
        ++ [closeBrace] ∧
    List.Sublist (keptScan false (filterLoopDecls lines)) (filterLoopDecls lines) ∧
    List.Sublist (filterLoopDecls lines) lines := by
  refine ⟨?_, keptScan_sublist _ _, List.filter_sublist _⟩
  unfold filter_internal_loops runScan
  rw [foldl_scan_kept]
  rfl

/-- Counterexample to C9 as stated: collapsing a minimal one-edge block
produces an empty line after the formatted edge line, so the output is not
kept lines + edge lines + brace. -/
theorem claim_C9_cex :
    filter_internal_loops c9cex =
      ["graph G \x7b".data, "    n1 -- n2;".data, "".data, "\x7d".data] ∧
    filter_internal_loops c9cex ≠
      ["graph G \x7b".data, "    n1 -- n2;".data, "\x7d".data] :=
  ⟨by decide, by decide⟩

/-! ## Claim C3 -/

theorem edges_add_edge_sub {g : Graph} {a b : Line} {e : Line × Line}
    (h : e ∈ (add_edge g a b).edges) :
    e ∈ g.edges ∨ e = (a, b) := by
  simp only [add_edge] at h
  split at h
  · rw [edges_addNode, edges_addNode] at h
    exact Or.inl h
  · simp only [edges_addNode] at h
    rcases List.mem_append.1 h with h | h
    · exact Or.inl h
    · exact Or.inr (List.mem_singleton.1 h)

theorem adjacent_add_edge {g : Graph} {a b x y : Line} :
    adjacent (add_edge g a b) x y ↔
      adjacent g x y ∨ (x = a ∧ y = b) ∨ (x = b ∧ y = a) := by
  constructor
  · rintro (h | h)
    · rcases edges_add_edge_sub h with h | h
      · exact Or.inl (Or.inl h)
      · obtain ⟨rfl, rfl⟩ : x = a ∧ y = b :=
          ⟨congrArg Prod.fst h, congrArg Prod.snd h⟩
        exact Or.inr (Or.inl ⟨rfl, rfl⟩)
    · rcases edges_add_edge_sub h with h | h
      · exact Or.inl (Or.inr h)
      · obtain ⟨rfl, rfl⟩ : y = a ∧ x = b :=
          ⟨congrArg Prod.fst h, congrArg Prod.snd h⟩
        exact Or.inr (Or.inr ⟨rfl, rfl⟩)
  · intro h
    have hself : adjacent (add_edge g a b) a b := adjacent_add_edge_self g a b
    have hmono : ∀ e ∈ g.edges, e ∈ (add_edge g a b).edges := by
      intro e he
      simp only [add_edge]
      split
      · rw [edges_addNode, edges_addNode]
        exact he
      · simp only [edges_addNode]
        exact List.mem_append_left _ he
    rcases h with h | ⟨rfl, rfl⟩ | ⟨rfl, rfl⟩
    · rcases h with h | h
      · exact Or.inl (hmono _ h)
      · exact Or.inr (hmono _ h)
    · exact hself
    · rcases hself with h | h
      · exact Or.inr h
      · exact Or.inl h

theorem parse_fst_adjacent :
    ∀ (lines : List Line) (acc : Graph × List (Line × Nat)) (x y : Line),
      adjacent ((lines.foldl parseStep acc).1) x y ↔
        adjacent acc.1 x y ∨
          ∃ l ∈ lines, ∃ a b, edgeMatchL l = some (a, b) ∧
            ((x = stripL a ∧ y = stripL b) ∨ (x = stripL b ∧ y = stripL a)) := by
  intro lines
  induction lines with
  | nil =>
    intro acc x y
    simp
  | cons l t ih =>
    intro acc x y
    rw [List.foldl_cons, ih]
    have hfst := parseStep_fst acc l
    cases he : edgeMatchL l with
    | none =>
      rw [he] at hfst
      rw [hfst]
      constructor
      · rintro (h | ⟨l', hl', a, b, hm, hxy⟩)
        · exact Or.inl h
        · exact Or.inr ⟨l', List.mem_cons_of_mem _ hl', a, b, hm, hxy⟩
      · rintro (h | ⟨l', hl', a, b, hm, hxy⟩)
        · exact Or.inl h
        · rcases List.mem_cons.1 hl' with rfl | hl'
          · rw [he] at hm
            cases hm
          · exact Or.inr ⟨l', hl', a, b, hm, hxy⟩
    | some ab =>
      obtain ⟨a, b⟩ := ab
      rw [he] at hfst
      rw [hfst, adjacent_add_edge]
      constructor
      · rintro ((h | ⟨rfl, rfl⟩ | ⟨rfl, rfl⟩) | ⟨l', hl', a', b', hm, hxy⟩)
        · exact Or.inl h
        · exact Or.inr ⟨l, List.mem_cons_self _ _, a, b, he, Or.inl ⟨rfl, rfl⟩⟩
        · exact Or.inr ⟨l, List.mem_cons_self _ _, a, b, he, Or.inr ⟨rfl, rfl⟩⟩
        · exact Or.inr ⟨l', List.mem_cons_of_mem _ hl', a', b', hm, hxy⟩
      · rintro (h | ⟨l', hl', a', b', hm, hxy⟩)
        · exact Or.inl (Or.inl h)
        · rcases List.mem_cons.1 hl' with rfl | hl'
          · rw [he] at hm
            obtain ⟨rfl, rfl⟩ : a' = a ∧ b' = b := by
              cases hm
              exact ⟨rfl, rfl⟩
            rcases hxy with ⟨rfl, rfl⟩ | ⟨rfl, rfl⟩
            · exact Or.inl (Or.inr (Or.inl ⟨rfl, rfl⟩))
            · exact Or.inl (Or.inr (Or.inr ⟨rfl, rfl⟩))
          · exact Or.inr ⟨l', hl', a', b', hm, hxy⟩

theorem mem_takeWhile_pred {q : Char → Bool} : ∀ {l : Line} {c : Char},
    c ∈ l.takeWhile q → q c = true := by
  intro l
  induction l with
  | nil => intro c h; simp at h
  | cons x t ih =>
    intro c h
    rw [List.takeWhile_cons] at h
    by_cases hx : q x = true
    · rw [if_pos hx] at h
      rcases List.mem_cons.1 h with rfl | h
      · exact hx
      · exact ih h
    · rw [if_neg hx] at h
      cases h

theorem edgeMatch_good {l a b : Line} (h : edgeMatchL l = some (a, b)) :
    goodTok a ∧ goodTok b := by
  simp only [edgeMatchL] at h
  split at h
  · cases h
  · split at h
    · split at h
      · split at h
        · split at h
          · cases h
          · rename_i hA x1 c1 c2 rest2 hdrop hws x2 tokB hsemi htokB
            cases h
            constructor
            · constructor
              · intro c hc
                simpa using mem_takeWhile_pred hc
              · intro hnil
                rw [hnil] at hA
                simp at hA
            · constructor
              · intro c hc
                obtain ⟨rest, hrest⟩ := lastSemiPre_spec hsemi
                have hcrun : c ∈ rest2.takeWhile (fun c => !isWS c) := by
                  rw [hrest]
                  exact List.mem_append_left _ hc
                simpa using mem_takeWhile_pred hcrun
              · intro hnil
                rw [hnil] at htokB
                simp at htokB
        · cases h
      · cases h
    · cases h

theorem addConn_good {m : List (Line × List Line)} {k v : Line}
    (hm : goodConns m) (hv : goodTok v) : goodConns (addConn m k v) := by
  induction m with
  | nil =>
    intro kv hkv w hw
    rcases List.mem_singleton.1 hkv with rfl
    rcases List.mem_singleton.1 hw with rfl
    exact hv
  | cons p rest ih =>
    obtain ⟨k', vs⟩ := p
    unfold addConn
    by_cases hk : k' = k
    · rw [if_pos hk]
      intro kv hkv w hw
      rcases List.mem_cons.1 hkv with rfl | hkv
      · rcases List.mem_append.1 hw with hw | hw
        · exact hm (k', vs) (List.mem_cons_self _ _) w hw
        · rcases List.mem_singleton.1 hw with rfl
          exact hv
      · exact hm kv (List.mem_cons_of_mem _ hkv) w hw
    · rw [if_neg hk]
      intro kv hkv w hw
      rcases List.mem_cons.1 hkv with rfl | hkv
      · exact hm (k', vs) (List.mem_cons_self _ _) w hw
      · exact ih (fun kv2 hkv2 => hm kv2 (List.mem_cons_of_mem _ hkv2)) kv hkv w hw

theorem scanStep_good {st : ScanSt} {l : Line}
    (hd : ∀ e ∈ st.direct, goodTok e.1 ∧ goodTok e.2)
    (hc : goodConns st.conns) :
    (∀ e ∈ (scanStep st l).direct, goodTok e.1 ∧ goodTok e.2) ∧
      goodConns (scanStep st l).conns := by
  unfold scanStep
  by_cases h1 : graphOpen.isPrefixOf (stripL l) = true
  · rw [if_pos h1]
    exact ⟨hd, hc⟩
  · rw [if_neg h1]
    set st' := if stripL l = closeBrace then { st with inside := false } else st with hst'
    have hd' : ∀ e ∈ st'.direct, goodTok e.1 ∧ goodTok e.2 := by
      rw [hst']
      split
      · exact hd
      · exact hd
    have hc' : goodConns st'.conns := by
      rw [hst']
      split
      · exact hc
      · exact hc
    by_cases h2 : st'.inside = true
    · rw [if_pos h2]
      cases he : edgeMatchL l with
      | none => exact ⟨hd', hc'⟩
      | some ab =>
        obtain ⟨a, b⟩ := ab
        obtain ⟨hga, hgb⟩ := edgeMatch_good he
        dsimp only
        by_cases h4 : a.contains 'i' = true
        · rw [if_pos (by rw [h4]; simp)]
          rw [if_pos h4]
          exact ⟨hd', addConn_good hc' hgb⟩
        · by_cases h5 : b.contains 'i' = true
          · rw [if_pos (by rw [h5]; simp)]
            rw [if_neg h4]
            exact ⟨hd', addConn_good hc' hga⟩
          · rw [if_neg (by
              simp only [Bool.or_eq_true, not_or]
              exact ⟨h4, h5⟩)]
            refine ⟨?_, hc'⟩
            intro e he'
            rcases List.mem_append.1 he' with he' | he'
            · exact hd' e he'
            · rcases List.mem_singleton.1 he' with rfl
              exact ⟨hga, hgb⟩
    · rw [if_neg h2]
      exact ⟨hd', hc'⟩

theorem runScan_good (lines : List Line) :
    (∀ e ∈ (runScan lines).direct, goodTok e.1 ∧ goodTok e.2) ∧
      goodConns (runScan lines).conns := by
  unfold runScan
  generalize filterLoopDecls lines = ls
  have : ∀ (ls : List Line) (st : ScanSt),
      (∀ e ∈ st.direct, goodTok e.1 ∧ goodTok e.2) → goodConns st.conns →
      (∀ e ∈ (ls.foldl scanStep st).direct, goodTok e.1 ∧ goodTok e.2) ∧
        goodConns (ls.foldl scanStep st).conns := by
    intro ls
    induction ls with
    | nil => intro st hd hc; exact ⟨hd, hc⟩
    | cons l t ih =>
      intro st hd hc
      rw [List.foldl_cons]
      obtain ⟨hd', hc'⟩ := scanStep_good hd hc
      exact ih _ hd' hc'
  exact this ls ⟨false, [], [], []⟩ (fun e he => absurd he (List.not_mem_nil e))
    (fun kv hkv => absurd hkv (List.not_mem_nil kv))

theorem collectedPairs_good {lines : List Line} {e : Line × Line}
    (he : e ∈ collectedPairs lines) : goodTok e.1 ∧ goodTok e.2 := by
  unfold collectedPairs at he
  obtain ⟨hd, hc⟩ := runScan_good lines
  rcases List.mem_append.1 he with he | he
  · exact hd e he
  · rw [List.mem_flatMap] at he
    obtain ⟨kv, hkv, hce⟩ := he
    obtain ⟨a, b⟩ := e
    obtain ⟨ha, hb⟩ := mem_of_cliquePairs hce
    exact ⟨hc kv hkv a ha, hc kv hkv b hb⟩

theorem edgeMatch_fmt {e : Line × Line} (h1 : goodTok e.1) (h2 : goodTok e.2) :
    edgeMatchL (fmtEdge e) = some (e.1, e.2) := by
  have hfmt : fmtEdge e =
      "    ".data ++ e.1 ++ ' ' :: '-' :: '-' :: ' ' :: (e.2 ++ [';']) := by
    unfold fmtEdge
    simp [List.append_assoc]
  rw [hfmt]
  exact @edgeMatch_format "    ".data e.1 e.2 ' ' ' '
    (by decide) h1.1 h1.2 h2.1 h2.2 (by decide) (by decide)

/-- C3 (amended): for any input whose kept lines (after dropping the last)
contain no line matching the edge pattern, re-parsing the collapsed output
yields as undirected edge set exactly the collected pool — kept direct
edges plus clique-expansion edges — up to orientation (the ordered-tuple
deduplication of the pool does not change the set).  The hypothesis is
necessary: the parser of `RNA_longest.py` has no block scoping, so an
edge-shaped line preserved outside the `graph G {` block is read back as
an additional edge (see the counterexample). -/
theorem claim_C3_roundtrip (lines : List Line)
    (hkept : ∀ l ∈ (runScan lines).kept.dropLast, edgeMatchL l = none) :
    ∀ x y, adjacent (parse_graph_with_bases (filter_internal_loops lines)).1 x y ↔
      ((x, y) ∈ collectedPairs lines ∨ (y, x) ∈ collectedPairs lines) := by
  intro x y
  unfold parse_graph_with_bases
  rw [parse_fst_adjacent]
  have hclose : edgeMatchL closeBrace = none := by decide
  have hnil : edgeMatchL ([] : Line) = none := by decide
  constructor
  · rintro (hadj | ⟨l, hl, a, b, hm, hxy⟩)
    · rcases hadj with h | h
      · exact absurd h (List.not_mem_nil _)
      · exact absurd h (List.not_mem_nil _)
    · unfold filter_internal_loops at hl
      rcases List.mem_append.1 hl with hl | hl
      · rcases List.mem_append.1 hl with hl | hl
        · rw [hkept l hl] at hm
          cases hm
        · rw [List.mem_flatMap] at hl
          obtain ⟨e, hec, hle⟩ := hl
          have hgood := collectedPairs_good (mem_collapsedEdges.1 hec)
          rcases List.mem_cons.1 hle with rfl | hle
          · rw [edgeMatch_fmt hgood.1 hgood.2] at hm
            obtain ⟨rfl, rfl⟩ : a = e.1 ∧ b = e.2 := by
              cases hm
              exact ⟨rfl, rfl⟩
            have hmm : e ∈ collectedPairs lines := mem_collapsedEdges.1 hec
            rcases hxy with ⟨rfl, rfl⟩ | ⟨rfl, rfl⟩
            · left
              rw [stripL_wsFree hgood.1.1, stripL_wsFree hgood.2.1]
              simpa using hmm
            · right
              rw [stripL_wsFree hgood.1.1, stripL_wsFree hgood.2.1]
              simpa using hmm
          · rcases List.mem_singleton.1 hle with rfl
            rw [hnil] at hm
            cases hm
      · rcases List.mem_singleton.1 hl with rfl
        rw [hclose] at hm
        cases hm
  · have hout : ∀ u v : Line, (u, v) ∈ collectedPairs lines →
        ∃ l ∈ filter_internal_loops lines, ∃ a b, edgeMatchL l = some (a, b) ∧
          u = stripL a ∧ v = stripL b := by
      intro u v hmem
      have hgood := collectedPairs_good hmem
      refine ⟨fmtEdge (u, v), ?_, u, v, edgeMatch_fmt hgood.1 hgood.2, ?_, ?_⟩
      · unfold filter_internal_loops
        refine List.mem_append_left _ (List.mem_append_right _ ?_)
        rw [List.mem_flatMap]
        exact ⟨(u, v), mem_collapsedEdges.2 hmem, List.mem_cons_self _ _⟩
      · exact (stripL_wsFree hgood.1.1).symm
      · exact (stripL_wsFree hgood.2.1).symm
    rintro (hmem | hmem)
    · obtain ⟨l, hl, a, b, hm, hu, hv⟩ := hout x y hmem
      exact Or.inr ⟨l, hl, a, b, hm, Or.inl ⟨hu, hv⟩⟩
    · obtain ⟨l, hl, a, b, hm, hu, hv⟩ := hout y x hmem
      exact Or.inr ⟨l, hl, a, b, hm, Or.inr ⟨hv, hu⟩⟩

/-- Witness for C3 (amended): collapsing a block where `i2` mediates
`n1`–`n3` and re-parsing relates `n1` and `n3` exactly as recorded. -/
theorem claim_C3_roundtrip_witness :
    adjacent (parse_graph_with_bases (filter_internal_loops c3wit)).1
        "n1".data "n3".data ↔
      (("n1".data, "n3".data) ∈ collectedPairs c3wit ∨
        ("n3".data, "n1".data) ∈ collectedPairs c3wit) :=
  claim_C3_roundtrip c3wit (by decide) "n1".data "n3".data

/-- Counterexample to C3 as stated: an edge-shaped line BEFORE the graph
block is kept verbatim by the collapse and then read back by the
scope-blind parser, so the re-parsed edge set strictly contains the
deduplicated union (which is empty here). -/
theorem claim_C3_cex :
    adjacent (parse_graph_with_bases (filter_internal_loops c3cex)).1
      "x".data "y".data ∧
    collectedPairs c3cex = [] :=
  ⟨by decide, by decide⟩

/-- Witness for C10: the connectivity conjunct evaluated at the concrete
pair `(n1, n2)`. -/
theorem claim_C10_zero_bases_witness :
    shortest_path g10 "n1".data "n2".data ≠ none :=
  claim_C10_zero_bases.2.1 "n1".data (by decide) "n2".data (by decide) (by decide)
